import Mathlib

/-
Verification of the LFQuant lookup-free quantizer (lfquant/__init__.py).

The Python source operates on real-valued tensors of shape (B, S, d).  We embed
a tensor as nested lists of rationals:

  * a position vector (the d coordinates)  : Vec    := List ℚ
  * a sample (S positions)                 : Sample := List Vec
  * a batch (B samples)                    : Batch  := List Sample

Floating point arithmetic is embedded as exact rational arithmetic.  The two
transcendental backend primitives used by softmax / log-softmax — `exp` and
`log` — are taken as explicit function parameters `E` and `Lg : ℚ → ℚ`, so all
definitions stay executable; theorems that need a property of the real `exp`
(strict positivity) take it as a hypothesis on `E`.

The source keeps the codebook transposed (`book_t`) purely so that `x @ book_t`
forms the inner product of each position with each codeword; we keep the list
of codeword rows and take the inner products directly.

Python `assert` statements are embedded by returning
`Except.error "AssertionError"`; the debug print is a no-op.
-/

namespace LFQuant

abbrev Vec := List ℚ
abbrev Sample := List Vec
abbrev Batch := List Sample

/-- The shared zero scalar of the module, `FZERO = torch.tensor(0.0)`. -/
def FZERO : ℚ := 0

/-- The three entropy-estimation strategies (`class LFQMode(Enum)`). -/
inductive LFQMode
  | VANILLA
  | X_BATCH
  | BLOCK
deriving DecidableEq

/-- Row `i` of the codebook built in `init_books`:
`indices.unsqueeze(-1).bitwise_right_shift(arange(d-1,-1,-1)).remainder(2)`
with zero bits replaced by `-1`.  Coordinate `j` is the bit of `i` at
big-endian position `j`, i.e. `(i >>> (d-1-j)) % 2`, mapped `0 ↦ -1, 1 ↦ +1`. -/
def bookRow (d i : ℕ) : Vec :=
  (List.range d).map (fun j => if (i >>> (d - 1 - j)) % 2 = 0 then (-1 : ℚ) else 1)

/-- The state written by `init_books`: the selected mode, the materialized
codebook (VANILLA / X_BATCH only) and the subbook partition (BLOCK only).
In the source these are `None`-initialized attributes of `LFQ`; bundling them
behind a single `Option` models `self.mode is None` as the laziness guard. -/
structure BooksState where
  mode : LFQMode
  book_t : Option (List Vec)
  subbook_size : Option ℕ
  num_subbooks : Option ℕ
  subbook_ranges : Option (List (ℕ × ℕ))
deriving DecidableEq

/-- Embedding of `LFQ.init_books` (lines 48-76): mode selection by chained strict
less-than comparisons against `mode_delimiter = (t0, t1)`, materializing the
full `2^d × d` codebook in the first two branches (the construction is written
out twice, as in the source) and the subbook partition in the third. -/
def init_books (d : ℕ) (mode_delimiter : ℕ × ℕ) : BooksState :=
  if d < mode_delimiter.1 then
    { mode := .VANILLA
      book_t := some ((List.range (2 ^ d)).map (bookRow d))
      subbook_size := none, num_subbooks := none, subbook_ranges := none }
  else if d < mode_delimiter.2 then
    { mode := .X_BATCH
      book_t := some ((List.range (2 ^ d)).map (bookRow d))
      subbook_size := none, num_subbooks := none, subbook_ranges := none }
  else
    { mode := .BLOCK
      book_t := none
      subbook_size := some (2 ^ (min 21 d - 1))
      num_subbooks := some (2 ^ d / 2 ^ (min 21 d - 1))
      subbook_ranges := some ((List.range (2 ^ d / 2 ^ (min 21 d - 1))).map
        (fun i => (i * 2 ^ (min 21 d - 1), (i + 1) * 2 ^ (min 21 d - 1)))) }

/-- Embedding of `torch.where(x > 0, 1, -1)` on one coordinate. -/
def signQ (a : ℚ) : ℚ := if 0 < a then 1 else -1

/-- Embedding of `torch.where(x > 0, 1, -1)` on one position vector. -/
def quantizeVec (v : Vec) : Vec := v.map signQ

/-- Embedding of `q = torch.where(x > 0, 1, -1)` (line 157) on the whole batch. -/
def quantizeBatch (x : Batch) : Batch := x.map (fun s => s.map quantizeVec)

/-- Elementwise binary tensor operation on same-shaped batches
(broadcast-free case, which is the only one `run` uses). -/
def bzip (f : ℚ → ℚ → ℚ) (a b : Batch) : Batch :=
  List.zipWith (List.zipWith (List.zipWith f)) a b

/-- Inner product of two vectors. -/
def dot (a b : Vec) : ℚ := (List.zipWith (· * ·) a b).sum

/-- Embedding of `x_chunk @ book_t` for one position: the inner product with every
codeword row. -/
def logitsOf (book : List Vec) (v : Vec) : List ℚ := book.map (fun row => dot v row)

/-- Embedding of `tnf.softmax(l, -1)` on one logit row, with `E` standing for `exp`:
entry `z` becomes `E z / Σ E`. -/
def softmaxD (E : ℚ → ℚ) (l : List ℚ) : List ℚ :=
  l.map (fun z => E z / (l.map E).sum)

/-- Embedding of `tnf.log_softmax(l, -1)` on one logit row, with `E` for `exp` and `Lg`
for `log`: entry `z` becomes `z - Lg (Σ E)`. -/
def logSoftmaxD (E Lg : ℚ → ℚ) (l : List ℚ) : List ℚ :=
  l.map (fun z => z - Lg ((l.map E).sum))

/-- The temperature-scaled logit row of one position (`logits / temperature`). -/
def posL (book : List Vec) (T : ℚ) (v : Vec) : List ℚ :=
  (logitsOf book v).map (fun z => z / T)

/-- Embedding of `probs = tnf.softmax(l, -1)` for one position. -/
def posProbs (book : List Vec) (T : ℚ) (E : ℚ → ℚ) (v : Vec) : List ℚ :=
  softmaxD E (posL book T v)

/-- Embedding of `log_probs = tnf.log_softmax(l + eps, -1)` for one position. -/
def posLogProbs (book : List Vec) (T eps : ℚ) (E Lg : ℚ → ℚ) (v : Vec) : List ℚ :=
  logSoftmaxD E Lg ((posL book T v).map (fun z => z + eps))

/-- Embedding of `entropy = -torch.sum(probs * log_probs, -1)` for one position. -/
def posEntropy (book : List Vec) (T eps : ℚ) (E Lg : ℚ → ℚ) (v : Vec) : ℚ :=
  -(List.zipWith (· * ·) (posProbs book T E v) (posLogProbs book T eps E Lg v)).sum

/-- Embedding of `torch.zeros(n)`. -/
def vzero (n : ℕ) : Vec := List.replicate n 0

/-- Elementwise sum of two equal-length vectors (`+=` on a tensor row). -/
def vadd (a b : Vec) : Vec := List.zipWith (· + ·) a b

/-- Scaling of a vector by a rational (`/ denorm`, `mean`). -/
def vsmul (c : ℚ) (a : Vec) : Vec := a.map (fun z => c * z)

/-- The successive slices `x[:, i*c : (i+1)*c]` for `i = 0 .. n-1`, obtained
by repeatedly splitting `c` positions off every sample. -/
def batchChunks (c : ℕ) : ℕ → Batch → List Batch
  | 0, _ => []
  | n + 1, x => x.map (List.take c) :: batchChunks c n (x.map (List.drop c))

/-- Embedding of `entro_mean.mean()` (and every other `.mean()` on a 1-D tensor). -/
def listMean (l : List ℚ) : ℚ := l.sum / (l.length : ℚ)

/-- Embedding of `mean_probs = probs.mean(dim=tuple(range(probs.dim() - 1)))` (line 92):
the mean of the probability rows of one chunk over both the batch and the
chunk dimension (all `B·chunk` rows flattened together). -/
def chunkMeanOf (book : List Vec) (T : ℚ) (E : ℚ → ℚ) (xc : Batch) : Vec :=
  let flat : List Vec := (xc.map (fun s => s.map (posProbs book T E))).flatten
  vsmul (1 / (flat.length : ℚ)) (List.foldl vadd (vzero book.length) flat)

/-- One iteration of the `calc_entro_by_batch` loop (lines 86-94): per-chunk
probabilities and entropies, the chunk-mean probability vector over batch and
chunk dimensions, the per-sample entropy accumulation normalized by the full
sequence length `S`, and the broadcast accumulation of the chunk mean into
every row of `self.mean_probs`. -/
def byBatchStep (book : List Vec) (T eps : ℚ) (E Lg : ℚ → ℚ) (S : ℕ)
    (st : List ℚ × List Vec) (xc : Batch) : List ℚ × List Vec :=
  let entAll : List (List ℚ) := xc.map (fun s => s.map (posEntropy book T eps E Lg))
  (List.zipWith (fun e srow => e + srow.sum / (S : ℚ)) st.1 entAll,
   st.2.map (fun row => vadd row (chunkMeanOf book T E xc)))

/-- The loop of `calc_entro_by_batch` together with the final
`self.mean_probs /= num_splits` (lines 81-95), returning the per-sample
`entro_mean` vector and the final `self.mean_probs` rows. -/
def byBatchCore (k : ℕ) (book : List Vec) (T eps : ℚ) (E Lg : ℚ → ℚ)
    (x_split : ℕ) (x : Batch) : List ℚ × List Vec :=
  let S := (x.headD []).length
  let num_splits := S / x_split
  let res := List.foldl (byBatchStep book T eps E Lg S)
    (List.replicate x.length 0, List.replicate x.length (vzero k))
    (batchChunks x_split num_splits x)
  (res.1, res.2.map (vsmul (1 / (num_splits : ℚ))))

/-- The condition of the debug assertion at line 97:
`abs(self.mean_probs[0].sum().item()) < 1.1`. -/
def debugGuard (mp : List Vec) : Bool := decide (|(mp.headD []).sum| < 11 / 10)

/-- Embedding of `-torch.sum(row * torch.log(row + eps), -1)` for one probability row. -/
def rowEntropy (eps : ℚ) (Lg : ℚ → ℚ) (row : Vec) : ℚ :=
  -(row.map (fun m => m * Lg (m + eps))).sum

/-- Embedding of `LFQ.calc_entro_by_batch` (lines 78-101).  The entry assert and the
debug assert are embedded as `Except.error "AssertionError"`. -/
def calc_entro_by_batch (k : ℕ) (book : List Vec) (T eps : ℚ) (E Lg : ℚ → ℚ)
    (x_split : ℕ) (debug : Bool) (x : Batch) : Except String (ℚ × ℚ) :=
  let S := (x.headD []).length
  if S % x_split = 0 then
    let core := byBatchCore k book T eps E Lg x_split x
    if debug && !debugGuard core.2 then .error "AssertionError"
    else .ok (listMean core.1, listMean (core.2.map (rowEntropy eps Lg)))
  else .error "AssertionError"

/-- Modelled from the spec: `generate_sub_book_t` lives in
`lfquant/codebook.py`, which is not under `src/`.  Per §6 it produces, for the
index range `[start, end)`, the codeword matrix whose column `j` is the
bit-expansion (MSB first, `0 ↦ -1`, `1 ↦ +1`) of the integer `start + j` —
exactly the rows `bookRow d (start + j)`; as with `book_t` we keep the list of
codeword rows rather than the transposed layout. -/
def generate_sub_book_t (d start stop : ℕ) : List Vec :=
  (List.range (stop - start)).map (fun j => bookRow d (start + j))

/-- Modelled from the spec: `book_entropy` lives in `lfquant/codebook.py`,
which is not under `src/`.  Per §6 it is `direct_entropy(x, book, eps)` with
the numerical contract of §4.3 Vanilla: logits are the inner products with
every codeword divided by the temperature (taken as an explicit argument here,
since §4.3 requires it but §6's signature leaves its transport unspecified);
softmax / log-softmax (the latter with the additive `eps` floor, as in the
functionally identical chunked sibling) give per-position entropies;
`entro_mean` is the entropy averaged over every position of every sample, and
`mean_entro` is the entropy (with the `eps` floor before the log) of the
batch-and-position-averaged probability vector. -/
def book_entropy (book : List Vec) (T eps : ℚ) (E Lg : ℚ → ℚ) (x : Batch) : ℚ × ℚ :=
  let allPos : List Vec := x.flatten
  let probsL : List Vec := allPos.map (posProbs book T E)
  let meanVec : Vec := vsmul (1 / (probsL.length : ℚ)) (List.foldl vadd (vzero book.length) probsL)
  (listMean (allPos.map (posEntropy book T eps E Lg)), rowEntropy eps Lg meanVec)

/-- Embedding of `LFQ.calc_entro_vanilla` (lines 103-104): delegate to `book_entropy` with
the stored codebook and `eps`. -/
def calc_entro_vanilla (book : List Vec) (T eps : ℚ) (E Lg : ℚ → ℚ) (x : Batch) : ℚ × ℚ :=
  book_entropy book T eps E Lg x

/-- Embedding of `LFQ._block` (lines 106-124) on one chunk: probabilities, entropies, and
accumulation of both per-sample running totals normalized by
`denorm = S * len(subbook_ranges)`; `mean_probs` gains the per-sample sum of
the chunk's probability rows (`torch.sum(probs, dim=-2)`). -/
def blockStep (sub_book : List Vec) (T eps : ℚ) (E Lg : ℚ → ℚ) (S R : ℕ)
    (st : List ℚ × List Vec) (xc : Batch) : List ℚ × List Vec :=
  let probsAll : List (List Vec) := xc.map (fun s => s.map (posProbs sub_book T E))
  let entAll : List (List ℚ) := xc.map (fun s => s.map (posEntropy sub_book T eps E Lg))
  let denorm : ℚ := ((S : ℚ) * (R : ℚ))
  (List.zipWith (fun e srow => e + srow.sum / denorm) st.1 entAll,
   List.zipWith (fun row srows =>
      vadd row (vsmul (1 / denorm) (List.foldl vadd (vzero sub_book.length) srows))) st.2 probsAll)

/-- The nested loops of `calc_entro_block` (lines 129-137): for every subbook
range, generate the subbook and fold `_block` over the sequence chunks. -/
def blockCore (d : ℕ) (subbook_size : ℕ) (ranges : List (ℕ × ℕ)) (T eps : ℚ)
    (E Lg : ℚ → ℚ) (x_split : ℕ) (x : Batch) : List ℚ × List Vec :=
  let S := (x.headD []).length
  List.foldl (fun st r =>
      let sub_book := generate_sub_book_t d r.1 r.2
      List.foldl (blockStep sub_book T eps E Lg S ranges.length) st
        (batchChunks x_split (S / x_split) x))
    (List.replicate x.length 0, List.replicate x.length (vzero subbook_size))
    ranges

/-- Embedding of `LFQ.calc_entro_block` (lines 126-139). -/
def calc_entro_block (d : ℕ) (subbook_size : ℕ) (ranges : List (ℕ × ℕ)) (T eps : ℚ)
    (E Lg : ℚ → ℚ) (x_split : ℕ) (x : Batch) : Except String (ℚ × ℚ) :=
  let S := (x.headD []).length
  if S % x_split = 0 then
    let core := blockCore d subbook_size ranges T eps E Lg x_split x
    .ok (listMean core.1, listMean (core.2.map (rowEntropy eps Lg)))
  else .error "AssertionError"

/-- Embedding of `2 ** torch.arange(n - 1, -1, -1).float()`: the powers
`[2^(n-1), ..., 2^0]`. -/
def powersOf2 (n : ℕ) : List ℚ := ((List.range n).reverse).map (fun j => (2 : ℚ) ^ j)

/-- Embedding of `.long()` on a scalar: truncation toward zero. -/
def truncQ (v : ℚ) : ℤ := v.num / (v.den : ℤ)

/-- Index decoding of one position (lines 181-188): `(q + 1) // 2` (floor
division), dot with the big-endian powers of two, then `.long()`. -/
def idxOfRow (q : Vec) : ℤ :=
  truncQ ((List.zipWith (· * ·) (q.map (fun a => ((⌊(a + 1) / 2⌋ : ℤ) : ℚ)))
    (powersOf2 q.length)).sum)

/-- The fifth slot of `run`'s six-value result.  In the training path it holds
the Python object `self.indices` (`None` or an index tensor); in the
non-training fast path the source puts the scalar `FZERO` there. -/
inductive IdxSlot
  | noneVal
  | zeroScalar
  | idx (v : List (List ℤ))
deriving DecidableEq

/-- The six-slot result of `LFQ.run`. -/
structure RunOut where
  q : Batch
  entro_mean : ℚ
  mean_entro : ℚ
  entro_loss : ℚ
  indices_slot : IdxSlot
  commit_loss : ℚ
deriving DecidableEq

/-- The `LFQ` instance state (`__init__`, lines 18-46).  `half_book` is
declared in the source but never read or written afterwards, so it is not
modelled.  `books = none` models `self.mode is None`. -/
structure LFQ where
  d : ℕ
  k : ℕ
  mode_delimiter : ℕ × ℕ
  temperature : ℚ
  eps : ℚ
  indices : Option (List (List ℤ))
  debug : Bool
  alpha : ℚ
  beta : ℚ
  commit_loss : Option Batch
  books : Option BooksState
  x_split : ℕ
  mean_probs : Option (List Vec)

/-- Embedding of `LFQ.__init__`. -/
def LFQ.init (d : ℕ) (alpha beta temperature eps : ℚ) (x_split : ℕ) (debug : Bool)
    (mode_delimiter : ℕ × ℕ) : LFQ :=
  { d := d, k := 2 ^ d, mode_delimiter := mode_delimiter, temperature := temperature
    eps := eps, indices := none, debug := debug, alpha := alpha, beta := beta
    commit_loss := none, books := none, x_split := x_split, mean_probs := none }

/-- The mode dispatch of `run` (lines 167-174): select the estimator matching
the initialized mode.  In the X_BATCH branch the returned `mean_probs` rows
record the `self.mean_probs` attribute written by `calc_entro_by_batch`.
The source's `raise ValueError("Wrong LFQMode")` arm is unreachable: the mode
type has exactly the three dispatched values. -/
def entroDispatch (st : LFQ) (books : BooksState) (E Lg : ℚ → ℚ) (x : Batch) :
    Except String ((ℚ × ℚ) × Option (List Vec)) :=
  match books.mode with
  | .VANILLA =>
      .ok (calc_entro_vanilla (books.book_t.getD []) st.temperature st.eps E Lg x, none)
  | .X_BATCH =>
      match calc_entro_by_batch st.k (books.book_t.getD []) st.temperature st.eps E Lg
          st.x_split st.debug x with
      | .error e => .error e
      | .ok p =>
          .ok (p, some (byBatchCore st.k (books.book_t.getD []) st.temperature st.eps E Lg
            st.x_split x).2)
  | .BLOCK =>
      match calc_entro_block st.d (books.subbook_size.getD 0) (books.subbook_ranges.getD [])
          st.temperature st.eps E Lg st.x_split x with
      | .error e => .error e
      | .ok p => .ok (p, none)

/-- Embedding of `LFQ.run` (lines 141-198).  The returned state reflects the instance
attributes after a successful call; on an estimator assertion failure the
exception propagates as `Except.error`. -/
def LFQ.run (st : LFQ) (E Lg : ℚ → ℚ) (x : Batch) (return_indices training : Bool) :
    Except String (RunOut × LFQ) :=
  let books := st.books.getD (init_books st.d st.mode_delimiter)
  let st1 : LFQ := { st with books := some books }
  let q := quantizeBatch x
  if training then
    match entroDispatch st books E Lg x with
    | .error e => .error e
    | .ok (em_me, mp) =>
        let entro_loss := st.alpha * em_me.1 - st.alpha * em_me.2
        let qp := bzip (· + ·) x (bzip (· - ·) q x)
        let cl : Batch := bzip (fun a b => (a - b) ^ 2) x qp
        let st2 : LFQ := { st1 with
          commit_loss := some cl
          mean_probs := match mp with | some v => some v | none => st1.mean_probs }
        let st3 : LFQ :=
          if return_indices then
            { st2 with indices := some (qp.map (fun s => s.map idxOfRow)) }
          else st2
        .ok ({ q := qp, entro_mean := em_me.1, mean_entro := em_me.2, entro_loss := entro_loss
               indices_slot := match st3.indices with | none => .noneVal | some v => .idx v
               commit_loss := listMean cl.flatten.flatten }, st3)
  else
    .ok ({ q := q, entro_mean := FZERO, mean_entro := FZERO, entro_loss := FZERO
           indices_slot := .zeroScalar, commit_loss := FZERO }, st1)

/-! ### The straight-through estimator is numerically the hard code -/

lemma add_sub_mid (a b : ℚ) : a + (b - a) = b := by ring

lemma zip_pass_vec (v : Vec) :
    List.zipWith (· + ·) v (List.zipWith (· - ·) (quantizeVec v) v) = quantizeVec v := by
  unfold quantizeVec
  induction v with
  | nil => rfl
  | cons a t ih => simp only [List.map_cons, List.zipWith_cons_cons, ih, add_sub_mid]

lemma zip_pass_sample (s : Sample) :
    List.zipWith (List.zipWith (· + ·)) s
      (List.zipWith (List.zipWith (· - ·)) (s.map quantizeVec) s) = s.map quantizeVec := by
  induction s with
  | nil => rfl
  | cons v t ih => simp only [List.map_cons, List.zipWith_cons_cons, ih, zip_pass_vec]

/-- The straight-through expression `x + (q - x)` (line 177) evaluates, coordinate by coordinate, to the hard
quantized code `q` itself: the straight-through construction changes no value. -/
lemma pass_through_eq (x : Batch) :
    bzip (· + ·) x (bzip (· - ·) (quantizeBatch x) x) = quantizeBatch x := by
  unfold bzip quantizeBatch
  induction x with
  | nil => rfl
  | cons s t ih => simp only [List.map_cons, List.zipWith_cons_cons, ih, zip_pass_sample]

/-- Mean squared error between a batch and a same-shaped (detached) target,
averaged over every coordinate of every position — the spec's commit-loss
contract (§4.2). -/
def commitLossSpec (x q : Batch) : ℚ :=
  listMean ((bzip (fun a b => (a - b) ^ 2) x q).flatten.flatten)

/-- Characterization of a successful training call: the result and the new
state, with the straight-through value already rewritten to the hard code. -/
lemma run_training_spec (st : LFQ) (E Lg : ℚ → ℚ) (x : Batch) (ri : Bool)
    (out : RunOut) (st' : LFQ) (h : st.run E Lg x ri true = .ok (out, st')) :
    ∃ em me mp,
      entroDispatch st (st.books.getD (init_books st.d st.mode_delimiter)) E Lg x
        = .ok ((em, me), mp) ∧
      out = { q := quantizeBatch x
              entro_mean := em
              mean_entro := me
              entro_loss := st.alpha * em - st.alpha * me
              indices_slot :=
                (match (if ri then some ((quantizeBatch x).map (fun s => s.map idxOfRow))
                        else st.indices) with
                 | none => .noneVal
                 | some v => .idx v)
              commit_loss := commitLossSpec x (quantizeBatch x) } ∧
      st' = { st with
              books := some (st.books.getD (init_books st.d st.mode_delimiter))
              commit_loss := some (bzip (fun a b => (a - b) ^ 2) x (quantizeBatch x))
              mean_probs := (match mp with | some v => some v | none => st.mean_probs)
              indices := if ri then some ((quantizeBatch x).map (fun s => s.map idxOfRow))
                         else st.indices } := by
  simp only [LFQ.run, if_true] at h
  rcases hd : entroDispatch st (st.books.getD (init_books st.d st.mode_delimiter)) E Lg x with
    e | ⟨⟨em, me⟩, mp⟩
  · rw [hd] at h
    simp at h
  · rw [hd] at h
    rw [pass_through_eq] at h
    simp only [Except.ok.injEq, Prod.mk.injEq] at h
    refine ⟨em, me, mp, rfl, ?_, ?_⟩
    · rw [← h.1]
      cases ri
      · rfl
      · rfl
    · rw [← h.2]
      cases ri
      · rfl
      · rfl

/-! ### Claim C1 — the inference fast path -/

/-- C1 (amended): for every input batch `x` and any value of the
return-indices flag, calling `run` with the training flag false returns the
hard quantized code together with `entro_mean`, `mean_entro`, `entro_loss` and
`commit_loss` all equal to an exact zero scalar, and the indices slot holding
that same exact zero scalar (rather than being omitted: no index value is
computed or stored); no entropy estimation is performed, and the state is
untouched except for the lazy mode initialization. -/
theorem lfq_c1_fast_path (st : LFQ) (E Lg : ℚ → ℚ) (x : Batch) (return_indices : Bool) :
    st.run E Lg x return_indices false =
      .ok ({ q := quantizeBatch x, entro_mean := 0, mean_entro := 0, entro_loss := 0,
             indices_slot := .zeroScalar, commit_loss := 0 },
           { st with books := some (st.books.getD (init_books st.d st.mode_delimiter)) }) :=
  rfl

/-- C1 counterexample to the claim as stated: with the return-indices flag
true and training false, the indices slot of the result is the zero scalar,
not an omitted/absent (`None`) slot. -/
theorem lfq_c1_counterexample :
    ((LFQ.init 2 1 1 1 0 16 false (19, 26)).run (fun _ => 1) (fun _ => 0)
        [[[(1 : ℚ)]]] true false).toOption.map (fun p => p.1.indices_slot) =
      some IdxSlot.zeroScalar ∧ IdxSlot.zeroScalar ≠ IdxSlot.noneVal := by
  exact ⟨rfl, by decide⟩

/-! ### Claim C2 — sign quantization -/

lemma signQ_spec (a : ℚ) : (signQ a = 1 ∨ signQ a = -1) ∧ (signQ a = 1 ↔ 0 < a) := by
  by_cases h : 0 < a <;> simp [signQ, h]
  norm_num

lemma forall2_quantize (x : Batch) :
    List.Forall₂ (List.Forall₂ (List.Forall₂
      (fun a b => (b = 1 ∨ b = -1) ∧ (b = 1 ↔ 0 < a)))) x (quantizeBatch x) := by
  unfold quantizeBatch
  rw [List.forall₂_map_right_iff, List.forall₂_same]
  intro s _
  rw [List.forall₂_map_right_iff, List.forall₂_same]
  intro v _
  unfold quantizeVec
  rw [List.forall₂_map_right_iff, List.forall₂_same]
  intro a _
  exact signQ_spec a

/-- C2: for all inputs `x`, the quantized code returned by `run` (in both the
training and non-training paths, for either value of the return-indices flag)
is the elementwise sign code: coordinate by coordinate it lies in `{-1, +1}`,
equals `+1` iff the corresponding input coordinate is strictly positive (so an
input coordinate equal to `0` maps to `-1`), each coordinate depending only on
the corresponding input coordinate. -/
theorem lfq_c2_quantize (st : LFQ) (E Lg : ℚ → ℚ) (x : Batch) (return_indices training : Bool)
    (h : (st.run E Lg x return_indices training).isOk = true) :
    (st.run E Lg x return_indices training).toOption.map (fun p => p.1.q)
      = some (quantizeBatch x) ∧
    List.Forall₂ (List.Forall₂ (List.Forall₂
      (fun a b => (b = 1 ∨ b = -1) ∧ (b = 1 ↔ 0 < a)))) x (quantizeBatch x) := by
  refine ⟨?_, forall2_quantize x⟩
  cases training
  · rfl
  · rcases hr : st.run E Lg x return_indices true with e | ⟨out, st'⟩
    · rw [hr] at h
      simp [Except.isOk, Except.toBool] at h
    · rcases run_training_spec st E Lg x return_indices out st' hr with ⟨em, me, mp, _, hout, _⟩
      rw [hout]
      rfl

def E0 : ℚ → ℚ := fun _ => 1

def Lg0 : ℚ → ℚ := fun _ => 0

/-- A VANILLA-mode configuration with `d = 2`, unit temperature, zero `eps`. -/
def stV : LFQ := LFQ.init 2 1 1 1 0 16 false (19, 26)

/-- C2 witness: a training call on a batch holding one positive, one negative
and one zero coordinate. -/
theorem lfq_c2_witness :
    ((stV.run E0 Lg0 [[[(1 : ℚ), -2], [(0 : ℚ), 3]]] false true).toOption.map (fun p => p.1.q))
      = some [[[1, -1], [-1, 1]]] := by
  have h := lfq_c2_quantize stV E0 Lg0 [[[(1 : ℚ), -2], [(0 : ℚ), 3]]] false true
    (by with_unfolding_all decide)
  exact h.1.trans (by with_unfolding_all decide)

/-! ### Claim C6 — the commit loss -/

/-- C6: in a training call, the returned commit loss is the mean squared error
between the raw input `x` and the (detached) hard quantized code, averaged over
every coordinate and every position. -/
theorem lfq_c6_commit (st : LFQ) (E Lg : ℚ → ℚ) (x : Batch) (return_indices : Bool)
    (h : (st.run E Lg x return_indices true).isOk = true) :
    (st.run E Lg x return_indices true).toOption.map (fun p => p.1.commit_loss)
      = some (commitLossSpec x (quantizeBatch x)) := by
  rcases hr : st.run E Lg x return_indices true with e | ⟨out, st'⟩
  · rw [hr] at h
    simp [Except.isOk, Except.toBool] at h
  · rcases run_training_spec st E Lg x return_indices out st' hr with ⟨em, me, mp, _, hout, _⟩
    rw [hout]
    rfl

/-- C6 witness: on an input with every coordinate `+0.5`, the quantized code
is all `+1` and the commit loss is exactly `0.25`. -/
theorem lfq_c6_witness :
    ((stV.run E0 Lg0 [[[(1 : ℚ)/2, 1/2], [(1 : ℚ)/2, 1/2]]] false true).toOption.map
      (fun p => p.1.commit_loss)) = some (1 / 4) ∧
    quantizeBatch [[[(1 : ℚ)/2, 1/2], [(1 : ℚ)/2, 1/2]]] = [[[1, 1], [1, 1]]] := by
  constructor
  · have h := lfq_c6_commit stV E0 Lg0 [[[(1 : ℚ)/2, 1/2], [(1 : ℚ)/2, 1/2]]] false
      (by with_unfolding_all decide)
    exact h.trans (by with_unfolding_all decide)
  · with_unfolding_all decide

/-! ### Claim C10 — the indices attribute is persistent, never-cleared state -/

/-- C10: `self.indices` starts out `None` and is only ever overwritten by a
call that requests indices; a training call with the return-indices flag false
returns, in the indices slot, whatever the instance currently stores — the
`None` marker if no earlier call ever requested indices, otherwise the stale
tensor left by the most recent call that did — and leaves the stored value
unchanged. -/
theorem lfq_c10_indices_state (st : LFQ) (E Lg : ℚ → ℚ) (x : Batch)
    (h : (st.run E Lg x false true).isOk = true) :
    (∀ d : ℕ, ∀ alpha beta T eps : ℚ, ∀ x_split : ℕ, ∀ debug : Bool, ∀ delim : ℕ × ℕ,
      (LFQ.init d alpha beta T eps x_split debug delim).indices = none) ∧
    (st.run E Lg x false true).toOption.map (fun p => (p.1.indices_slot, p.2.indices))
      = some ((match st.indices with | none => IdxSlot.noneVal | some v => IdxSlot.idx v),
              st.indices) := by
  refine ⟨fun _ _ _ _ _ _ _ _ => rfl, ?_⟩
  rcases hr : st.run E Lg x false true with e | ⟨out, st'⟩
  · rw [hr] at h
    simp [Except.isOk, Except.toBool] at h
  · rcases run_training_spec st E Lg x false out st' hr with ⟨em, me, mp, _, hout, hst⟩
    rw [hout, hst]
    rfl

/-- A configuration carrying stale indices from an earlier requesting call. -/
def stStale : LFQ := { stV with indices := some [[5]] }

/-- C10 witness: a training call with the return-indices flag false returns
the stale stored tensor `[[5]]` and leaves it stored. -/
theorem lfq_c10_witness :
    ((stStale.run E0 Lg0 [[[(1 : ℚ)/2, 1/2]]] false true).toOption.map
      (fun p => (p.1.indices_slot, p.2.indices)))
      = some (IdxSlot.idx [[5]], some [[5]]) := by
  have h := lfq_c10_indices_state stStale E0 Lg0 [[[(1 : ℚ)/2, 1/2]]]
    (by with_unfolding_all decide)
  exact h.2.trans (by with_unfolding_all decide)

/-! ### Claim C3 — lazy mode selection -/

/-- C3: for ordered thresholds `(t0, t1)`, lazy initialization selects exactly
one mode by strict less-than comparisons — VANILLA iff `d < t0`, CHUNKED-BATCH
(X_BATCH) iff `t0 ≤ d < t1` (materializing the same full `2^d × d` codebook as
VANILLA: the codebook is independent of the thresholds whenever `d < t1`), and
BLOCK iff `d ≥ t1` (no codebook materialized; subbook partition computed). -/
theorem lfq_c3_mode_select (d t0 t1 : ℕ) (hord : t0 ≤ t1) :
    ((init_books d (t0, t1)).mode = .VANILLA ↔ d < t0) ∧
    ((init_books d (t0, t1)).mode = .X_BATCH ↔ t0 ≤ d ∧ d < t1) ∧
    ((init_books d (t0, t1)).mode = .BLOCK ↔ t1 ≤ d) ∧
    (d < t1 → (init_books d (t0, t1)).book_t = some ((List.range (2 ^ d)).map (bookRow d)) ∧
      (∀ u0 u1 : ℕ, d < u1 → (init_books d (t0, t1)).book_t = (init_books d (u0, u1)).book_t) ∧
      ((List.range (2 ^ d)).map (bookRow d)).length = 2 ^ d ∧
      (∀ r ∈ (List.range (2 ^ d)).map (bookRow d), r.length = d)) ∧
    (t1 ≤ d → (init_books d (t0, t1)).book_t = none ∧
      (init_books d (t0, t1)).subbook_size = some (2 ^ (min 21 d - 1)) ∧
      (init_books d (t0, t1)).num_subbooks = some (2 ^ d / 2 ^ (min 21 d - 1)) ∧
      (init_books d (t0, t1)).subbook_ranges = some ((List.range (2 ^ d / 2 ^ (min 21 d - 1))).map
        (fun i => (i * 2 ^ (min 21 d - 1), (i + 1) * 2 ^ (min 21 d - 1))))) := by
  refine ⟨?_, ?_, ?_, ?_, ?_⟩
  · by_cases h0 : d < t0 <;> by_cases h1 : d < t1 <;> simp [init_books, h0, h1]
  · by_cases h0 : d < t0 <;> by_cases h1 : d < t1 <;> simp [init_books, h0, h1]
    omega
  · by_cases h0 : d < t0 <;> by_cases h1 : d < t1 <;> simp [init_books, h0, h1] <;> omega
  · intro h1
    have hbt : ∀ u0 u1 : ℕ, d < u1 →
        (init_books d (u0, u1)).book_t = some ((List.range (2 ^ d)).map (bookRow d)) := by
      intro u0 u1 hu
      by_cases h0 : d < u0 <;> simp [init_books, h0, hu]
    refine ⟨hbt t0 t1 h1, fun u0 u1 hu => (hbt t0 t1 h1).trans (hbt u0 u1 hu).symm, by simp, ?_⟩
    intro r hr
    rcases List.mem_map.1 hr with ⟨i, _, rfl⟩
    simp [bookRow]
  · intro h1
    have h0 : ¬ d < t0 := by omega
    have h1' : ¬ d < t1 := by omega
    simp [init_books, h0, h1']

/-- C3 witness: at `d = 3`, thresholds `(2, 4)`, the selector picks X_BATCH,
and the codebook it materializes is the one a VANILLA configuration of the
same bit-width materializes. -/
theorem lfq_c3_witness :
    (init_books 3 (2, 4)).mode = LFQMode.X_BATCH ∧
    (init_books 1 (2, 4)).mode = LFQMode.VANILLA ∧
    (init_books 4 (2, 4)).mode = LFQMode.BLOCK ∧
    (init_books 3 (2, 4)).book_t = (init_books 3 (4, 5)).book_t := by
  have h := lfq_c3_mode_select 3 2 4 (by decide)
  exact ⟨h.2.1.mpr (by decide), by decide, by decide, (h.2.2.2.1 (by decide)).2.1 4 5 (by decide)⟩

/-! ### Claim C7 — the Block subbook partition -/

/-- C7: in BLOCK mode the partition computed at initialization has
`subbook_size = 2^(min(21, d) - 1)` and `num_subbooks = k / subbook_size`
(with `subbook_size` dividing `k = 2^d` exactly), and the ranges are the
contiguous, equal-size, pairwise-disjoint intervals
`[i·s, (i+1)·s)` covering `[0, 2^d)` exactly. -/
theorem lfq_c7_subbook_partition (d t0 t1 : ℕ) (hord : t0 ≤ t1) (h1 : t1 ≤ d) (hd : 1 ≤ d) :
    (init_books d (t0, t1)).subbook_size = some (2 ^ (min 21 d - 1)) ∧
    (init_books d (t0, t1)).num_subbooks = some (2 ^ d / 2 ^ (min 21 d - 1)) ∧
    (2 ^ d / 2 ^ (min 21 d - 1)) * 2 ^ (min 21 d - 1) = 2 ^ d ∧
    ∃ L, (init_books d (t0, t1)).subbook_ranges = some L ∧
      L.length = 2 ^ d / 2 ^ (min 21 d - 1) ∧
      (∀ i (hi : i < L.length),
        L.get ⟨i, hi⟩ = (i * 2 ^ (min 21 d - 1), (i + 1) * 2 ^ (min 21 d - 1))) ∧
      (∀ r ∈ L, r.2 - r.1 = 2 ^ (min 21 d - 1)) ∧
      (∀ i (hi : i + 1 < L.length),
        (L.get ⟨i + 1, hi⟩).1 = (L.get ⟨i, Nat.lt_of_succ_lt hi⟩).2) ∧
      List.Pairwise (fun r r' => r.2 ≤ r'.1) L ∧
      (∀ n, n < 2 ^ d → ∃ r ∈ L, r.1 ≤ n ∧ n < r.2) ∧
      (∀ r ∈ L, r.2 ≤ 2 ^ d) := by
  have h0 : ¬ d < t0 := by omega
  have h1' : ¬ d < t1 := by omega
  have he : min 21 d - 1 ≤ d := by
    have := Nat.min_le_right 21 d
    omega
  have hdvd : 2 ^ (min 21 d - 1) ∣ 2 ^ d := pow_dvd_pow 2 he
  have hs : 0 < 2 ^ (min 21 d - 1) := Nat.pos_pow_of_pos _ (by omega)
  have hNs : (2 ^ d / 2 ^ (min 21 d - 1)) * 2 ^ (min 21 d - 1) = 2 ^ d :=
    Nat.div_mul_cancel hdvd
  refine ⟨by simp [init_books, h0, h1'], by simp [init_books, h0, h1'], hNs,
    (List.range (2 ^ d / 2 ^ (min 21 d - 1))).map
      (fun i => (i * 2 ^ (min 21 d - 1), (i + 1) * 2 ^ (min 21 d - 1))),
    by simp [init_books, h0, h1'], by simp, ?_, ?_, ?_, ?_, ?_, ?_⟩
  · intro i hi
    simp
  · intro r hr
    rcases List.mem_map.1 hr with ⟨i, _, rfl⟩
    simp [Nat.succ_mul]
  · intro i hi
    simp
  · rw [List.pairwise_map]
    refine (List.pairwise_lt_range _).imp ?_
    intro a b hab
    exact Nat.mul_le_mul_right _ (by omega)
  · intro n hn
    refine ⟨(n / 2 ^ (min 21 d - 1) * 2 ^ (min 21 d - 1),
      (n / 2 ^ (min 21 d - 1) + 1) * 2 ^ (min 21 d - 1)), ?_, ?_, ?_⟩
    · exact List.mem_map.2 ⟨n / 2 ^ (min 21 d - 1),
        List.mem_range.2 ((Nat.div_lt_iff_lt_mul hs).2 (by rw [hNs] at *; omega)), rfl⟩
    · exact Nat.div_mul_le_self n _
    · have hdm := Nat.div_add_mod n (2 ^ (min 21 d - 1))
      have hml := Nat.mod_lt n hs
      have hcm : n / 2 ^ (min 21 d - 1) * 2 ^ (min 21 d - 1)
          = 2 ^ (min 21 d - 1) * (n / 2 ^ (min 21 d - 1)) := Nat.mul_comm _ _
      rw [Nat.succ_mul]
      omega
  · intro r hr
    rcases List.mem_map.1 hr with ⟨i, hi, rfl⟩
    have : i + 1 ≤ 2 ^ d / 2 ^ (min 21 d - 1) := List.mem_range.1 hi
    calc (i + 1) * 2 ^ (min 21 d - 1)
        ≤ (2 ^ d / 2 ^ (min 21 d - 1)) * 2 ^ (min 21 d - 1) := Nat.mul_le_mul_right _ this
      _ = 2 ^ d := hNs

/-- C7 witness: for `d = 20` in Block mode, exactly `2` subbooks of size
`2^19` partition `[0, 2^20)`. -/
theorem lfq_c7_witness :
    (init_books 20 (19, 20)).subbook_size = some 524288 ∧
    (init_books 20 (19, 20)).num_subbooks = some 2 ∧
    (init_books 20 (19, 20)).subbook_ranges = some [(0, 524288), (524288, 1048576)] := by
  have h := lfq_c7_subbook_partition 20 19 20 (by decide) (by decide) (by decide)
  exact ⟨h.1.trans (by decide), h.2.1.trans (by decide), by decide⟩

/-! ### Claim C9 — the divisibility precondition is checked -/

/-- C9 (amended): in CHUNKED-BATCH and BLOCK modes, a sequence length `S` not
evenly divisible by the configured chunk size is detected at function entry by
an `assert` statement: both estimators fail with an `AssertionError` instead of
proceeding — the violation is detected and reported, not undefined behavior. -/
theorem lfq_c9_assert_detects (k : ℕ) (book : List Vec) (T eps : ℚ) (E Lg : ℚ → ℚ)
    (x_split : ℕ) (debug : Bool) (d subbook_size : ℕ) (ranges : List (ℕ × ℕ)) (x : Batch)
    (h : (x.headD []).length % x_split ≠ 0) :
    calc_entro_by_batch k book T eps E Lg x_split debug x = .error "AssertionError" ∧
    calc_entro_block d subbook_size ranges T eps E Lg x_split x = .error "AssertionError" := by
  constructor
  · simp only [calc_entro_by_batch]
    rw [if_neg h]
  · simp only [calc_entro_block]
    rw [if_neg h]

/-- C9 witness: a batch with `S = 3` positions against chunk size `2`. -/
theorem lfq_c9_witness :
    calc_entro_by_batch 2 [] 1 0 (fun _ => 1) (fun _ => 0) 2 false
      [[[(1 : ℚ)], [(1 : ℚ)], [(1 : ℚ)]]] = .error "AssertionError" ∧
    calc_entro_block 1 1 [] 1 0 (fun _ => 1) (fun _ => 0) 2
      [[[(1 : ℚ)], [(1 : ℚ)], [(1 : ℚ)]]] = .error "AssertionError" :=
  lfq_c9_assert_detects 2 [] 1 0 (fun _ => 1) (fun _ => 0) 2 false 1 1 []
    [[[(1 : ℚ)], [(1 : ℚ)], [(1 : ℚ)]]] (by decide)

/-- C9 counterexample to the claim as stated ("the program does not detect or
report the violation"): at the cited source lines the violation is detected
and reported as an `AssertionError`. -/
theorem lfq_c9_counterexample :
    calc_entro_by_batch 4 [] 1 0 (fun _ => 1) (fun _ => 0) 2 false
      [[[(1 : ℚ)], [(2 : ℚ)], [(3 : ℚ)]]] = .error "AssertionError" := rfl

/-! ### Claim C4 — index decoding and re-expansion -/

/-- Big-endian value of a bit string (MSB first). -/
def beNat : List Bool → ℕ
  | [] => 0
  | b :: t => (cond b 1 0) * 2 ^ t.length + beNat t

lemma beNat_lt (L : List Bool) : beNat L < 2 ^ L.length := by
  induction L with
  | nil => simp [beNat]
  | cons b t ih =>
    simp only [beNat, List.length_cons, pow_succ]
    cases b <;> simp <;> omega

lemma powersOf2_succ (n : ℕ) :
    powersOf2 (n + 1) = (2 : ℚ) ^ n :: powersOf2 n := by
  unfold powersOf2
  rw [List.range_succ, List.reverse_append]
  rfl

lemma floorBit (a : ℚ) : (⌊(signQ a + 1) / 2⌋ : ℤ) = cond (decide (0 < a)) 1 0 := by
  by_cases h : 0 < a <;> simp [signQ, h]

/-- The decoded index of a hard-quantized position is the big-endian value of
its bit pattern. -/
lemma idxOfRow_quantize (v : Vec) :
    idxOfRow (quantizeVec v) = (beNat (v.map (fun a => decide (0 < a))) : ℤ) := by
  unfold idxOfRow
  have hlen : (quantizeVec v).length = v.length := List.length_map _ _
  have hsum : (List.zipWith (· * ·)
      ((quantizeVec v).map (fun a => ((⌊(a + 1) / 2⌋ : ℤ) : ℚ)))
      (powersOf2 (quantizeVec v).length)).sum
      = ((beNat (v.map (fun a => decide (0 < a))) : ℕ) : ℚ) := by
    rw [hlen]
    clear hlen
    unfold quantizeVec
    induction v with
    | nil => simp [beNat, powersOf2]
    | cons a t ih =>
      rw [List.map_cons, List.map_cons, List.length_cons, powersOf2_succ,
        List.zipWith_cons_cons, List.sum_cons, ih, List.map_cons]
      show ((⌊(signQ a + 1) / 2⌋ : ℤ) : ℚ) * 2 ^ t.length + _ = _
      rw [floorBit]
      simp only [beNat, List.length_map]
      push_cast
      cases hb : decide (0 < a) <;> simp
  rw [hsum]
  unfold truncQ
  rw [Rat.num_natCast, Rat.den_natCast]
  simp

/-- Re-expanding the big-endian value of a bit string through the codebook
row construction recovers the `{-1,+1}` pattern. -/
lemma bookRow_beNat (L : List Bool) :
    bookRow L.length (beNat L) = L.map (fun b => cond b (1 : ℚ) (-1)) := by
  induction L with
  | nil => rfl
  | cons b t ih =>
    have hr : beNat t < 2 ^ t.length := beNat_lt t
    rw [List.length_cons]
    unfold bookRow
    rw [List.range_succ_eq_map, List.map_cons, List.map_map, List.map_cons]
    congr 1
    · show (if ((beNat (b :: t)) >>> (t.length + 1 - 1 - 0)) % 2 = 0 then (-1 : ℚ) else 1)
        = cond b 1 (-1)
      simp only [beNat, Nat.add_sub_cancel, Nat.sub_zero, Nat.shiftRight_eq_div_pow]
      cases b
      · simp only [cond_false, Nat.zero_mul, Nat.zero_add]
        rw [Nat.div_eq_of_lt hr]
        simp
      · simp only [cond_true, Nat.one_mul]
        rw [Nat.add_comm, Nat.add_div_right _ (Nat.pos_pow_of_pos _ (by omega)),
          Nat.div_eq_of_lt hr]
        simp
    · rw [← ih]
      unfold bookRow
      refine List.map_congr_left ?_
      intro j hj
      have hjm : j < t.length := List.mem_range.1 hj
      show (if ((beNat (b :: t)) >>> (t.length + 1 - 1 - (j + 1))) % 2 = 0 then (-1 : ℚ) else 1)
        = (if ((beNat t) >>> (t.length - 1 - j)) % 2 = 0 then (-1 : ℚ) else 1)
      have harith : t.length + 1 - 1 - (j + 1) = t.length - 1 - j := by omega
      rw [harith]
      have hkey : ((beNat (b :: t)) >>> (t.length - 1 - j)) % 2
          = ((beNat t) >>> (t.length - 1 - j)) % 2 := by
        simp only [beNat, Nat.shiftRight_eq_div_pow]
        cases b
        · simp
        · simp only [cond_true, Nat.one_mul]
          have hsplit : (2 : ℕ) ^ t.length
              = 2 ^ (t.length - 1 - j) * (2 * 2 ^ (t.length - (t.length - 1 - j) - 1)) := by
            rw [← pow_succ', ← pow_add]
            congr 1
            omega
          rw [hsplit, Nat.add_comm,
            Nat.add_mul_div_left _ _ (Nat.pos_pow_of_pos _ (by omega)),
            Nat.add_mul_mod_self_left]
      rw [hkey]

lemma quantizeVec_eq_bits (v : Vec) :
    quantizeVec v = (v.map (fun a => decide (0 < a))).map (fun b => cond b (1 : ℚ) (-1)) := by
  unfold quantizeVec
  rw [List.map_map]
  refine List.map_congr_left ?_
  intro a _
  by_cases h : 0 < a <;> simp [signQ, h]

/-- C4: in VANILLA and CHUNKED-BATCH modes (and indeed whenever a training
call with requested indices succeeds), the stored and returned index of every
position is decoded from the hard quantized pattern — it equals the big-endian
unsigned integer of that pattern's bit string — and re-expanding the index
into bits through the codebook row construction (MSB first, `0 ↦ -1`)
reproduces the same `{-1,+1}` quantized pattern. -/
theorem lfq_c4_index_roundtrip (st : LFQ) (E Lg : ℚ → ℚ) (x : Batch)
    (h : (st.run E Lg x true true).isOk = true) :
    (st.run E Lg x true true).toOption.map (fun p => (p.1.indices_slot, p.2.indices))
      = some (IdxSlot.idx ((quantizeBatch x).map (fun s => s.map idxOfRow)),
              some ((quantizeBatch x).map (fun s => s.map idxOfRow))) ∧
    (∀ v : Vec, idxOfRow (quantizeVec v) = (beNat (v.map (fun a => decide (0 < a))) : ℤ)) ∧
    (∀ v : Vec, bookRow v.length (idxOfRow (quantizeVec v)).toNat = quantizeVec v) := by
  refine ⟨?_, idxOfRow_quantize, ?_⟩
  · rcases hr : st.run E Lg x true true with e | ⟨out, st'⟩
    · rw [hr] at h
      simp [Except.isOk, Except.toBool] at h
    · rcases run_training_spec st E Lg x true out st' hr with ⟨em, me, mp, _, hout, hst⟩
      rw [hout, hst]
      rfl
  · intro v
    rw [idxOfRow_quantize v, Int.toNat_natCast]
    have hlen : v.length = (v.map (fun a => decide (0 < a))).length := (List.length_map _ _).symm
    rw [hlen, bookRow_beNat, ← quantizeVec_eq_bits]

/-- C4 witness: a training call with requested indices on the pattern
`(+1, -1)`, whose big-endian index is `2`. -/
theorem lfq_c4_witness :
    ((stV.run E0 Lg0 [[[(1 : ℚ), -1/2]]] true true).toOption.map
      (fun p => (p.1.indices_slot, p.2.indices)))
      = some (IdxSlot.idx [[2]], some [[2]]) ∧
    bookRow 2 2 = [1, -1] := by
  constructor
  · have h := lfq_c4_index_roundtrip stV E0 Lg0 [[[(1 : ℚ), -1/2]]]
      (by with_unfolding_all decide)
    exact h.1.trans (by with_unfolding_all decide)
  · with_unfolding_all decide

/-! ### Vector algebra toolkit -/

lemma length_vzero (n : ℕ) : (vzero n).length = n := List.length_replicate _ _

lemma sum_vzero (n : ℕ) : (vzero n).sum = 0 := by simp [vzero]

lemma length_vadd (a b : Vec) : (vadd a b).length = min a.length b.length :=
  List.length_zipWith _ _ _

lemma length_vsmul (c : ℚ) (a : Vec) : (vsmul c a).length = a.length := List.length_map _ _

lemma vadd_assoc (a b c : Vec) : vadd (vadd a b) c = vadd a (vadd b c) := by
  induction a generalizing b c with
  | nil => simp [vadd]
  | cons x t ih =>
    cases b with
    | nil => simp [vadd]
    | cons y u =>
      cases c with
      | nil => simp [vadd]
      | cons z w =>
        simp only [vadd, List.zipWith_cons_cons] at ih ⊢
        rw [add_assoc, ih]

lemma vadd_right_comm (b a1 a2 : Vec) : vadd (vadd b a1) a2 = vadd (vadd b a2) a1 := by
  induction b generalizing a1 a2 with
  | nil => simp [vadd]
  | cons x t ih =>
    cases a1 with
    | nil => simp [vadd]
    | cons y u =>
      cases a2 with
      | nil => simp [vadd]
      | cons z w =>
        simp only [vadd, List.zipWith_cons_cons] at ih ⊢
        rw [add_right_comm, ih]

instance : RightCommutative vadd := ⟨vadd_right_comm⟩

lemma vadd_vzero_left {n : ℕ} (a : Vec) (h : a.length = n) : vadd (vzero n) a = a := by
  subst h
  induction a with
  | nil => rfl
  | cons x t ih =>
    simp only [vadd, vzero, List.length_cons, List.replicate_succ,
      List.zipWith_cons_cons, zero_add] at ih ⊢
    rw [ih]

lemma vadd_vzero_right {n : ℕ} (a : Vec) (h : a.length = n) : vadd a (vzero n) = a := by
  subst h
  induction a with
  | nil => rfl
  | cons x t ih =>
    simp only [vadd, vzero, List.length_cons, List.replicate_succ,
      List.zipWith_cons_cons, add_zero] at ih ⊢
    rw [ih]

lemma sum_vadd (a : Vec) : ∀ b : Vec, a.length = b.length → (vadd a b).sum = a.sum + b.sum := by
  induction a with
  | nil =>
    intro b hb
    rw [(List.length_eq_zero.1 hb.symm)]
    simp [vadd]
  | cons x t ih =>
    intro b hb
    cases b with
    | nil => simp at hb
    | cons y u =>
      simp only [vadd, List.zipWith_cons_cons, List.sum_cons] at ih ⊢
      rw [ih u (by simpa using hb)]
      ring

lemma sum_vsmul (c : ℚ) (a : Vec) : (vsmul c a).sum = c * a.sum := by
  simpa [vsmul] using List.sum_map_mul_left a (fun z => z) c

lemma vsmul_vadd (c : ℚ) (a : Vec) : ∀ b : Vec, vsmul c (vadd a b) = vadd (vsmul c a) (vsmul c b) := by
  induction a with
  | nil => intro b; simp [vadd, vsmul]
  | cons x t ih =>
    intro b
    cases b with
    | nil => simp [vadd, vsmul]
    | cons y u =>
      simp only [vadd, vsmul, List.zipWith_cons_cons, List.map_cons] at ih ⊢
      rw [mul_add, ih]

lemma vsmul_vsmul (c d : ℚ) (a : Vec) : vsmul c (vsmul d a) = vsmul (c * d) a := by
  simp [vsmul, List.map_map, Function.comp, mul_assoc]

lemma vsmul_vzero (c : ℚ) (n : ℕ) : vsmul c (vzero n) = vzero n := by
  simp [vsmul, vzero, List.map_replicate]

lemma length_foldl_vadd {k : ℕ} (l : List Vec) :
    ∀ z : Vec, z.length = k → (∀ v ∈ l, v.length = k) → (List.foldl vadd z l).length = k := by
  induction l with
  | nil => intro z hz _; exact hz
  | cons a t ih =>
    intro z hz hl
    rw [List.foldl_cons]
    refine ih _ ?_ (fun v hv => hl v (List.mem_cons_of_mem _ hv))
    rw [length_vadd, hz, hl a (List.mem_cons_self _ _)]
    simp

lemma sum_foldl_vadd {k : ℕ} (l : List Vec) :
    ∀ z : Vec, z.length = k → (∀ v ∈ l, v.length = k) →
      (List.foldl vadd z l).sum = z.sum + (l.map List.sum).sum := by
  induction l with
  | nil => intro z _ _; simp
  | cons a t ih =>
    intro z hz hl
    rw [List.foldl_cons, ih _ (by rw [length_vadd, hz, hl a (List.mem_cons_self _ _)]; simp)
      (fun v hv => hl v (List.mem_cons_of_mem _ hv)),
      sum_vadd z a (by rw [hz, hl a (List.mem_cons_self _ _)])]
    simp only [List.map_cons, List.sum_cons]
    ring

lemma foldl_vadd_eq_vadd {k : ℕ} (l : List Vec) :
    ∀ z : Vec, z.length = k → (∀ v ∈ l, v.length = k) →
      List.foldl vadd z l = vadd z (List.foldl vadd (vzero k) l) := by
  induction l with
  | nil =>
    intro z hz _
    exact (vadd_vzero_right z hz).symm
  | cons a t ih =>
    intro z hz hl
    have ha : a.length = k := hl a (List.mem_cons_self _ _)
    have ht : ∀ v ∈ t, v.length = k := fun v hv => hl v (List.mem_cons_of_mem _ hv)
    rw [List.foldl_cons, List.foldl_cons, vadd_vzero_left a ha,
      ih _ (by rw [length_vadd, hz, ha]; simp) ht, ih a ha ht, vadd_assoc]

lemma vsmul_foldl_vadd (c : ℚ) (l : List Vec) :
    ∀ z : Vec, vsmul c (List.foldl vadd z l) = List.foldl vadd (vsmul c z) (l.map (vsmul c)) := by
  induction l with
  | nil => intro z; rfl
  | cons a t ih =>
    intro z
    rw [List.foldl_cons, List.map_cons, List.foldl_cons, ih, vsmul_vadd]

/-! ### Permutation facts about chunking -/

lemma flatten_map_append_perm {α β : Type _} (f g : α → List β) (x : List α) :
    ((x.map f).flatten ++ (x.map g).flatten).Perm (x.map (fun s => f s ++ g s)).flatten := by
  induction x with
  | nil => simp
  | cons s t ih =>
    simp only [List.map_cons, List.flatten_cons]
    have h1 : (f s ++ (t.map f).flatten) ++ (g s ++ (t.map g).flatten)
        = f s ++ (((t.map f).flatten ++ g s) ++ (t.map g).flatten) := by
      simp [List.append_assoc]
    rw [h1]
    refine List.Perm.trans
      (List.Perm.append_left (f s) (List.Perm.append_right _ List.perm_append_comm)) ?_
    have h3 : f s ++ ((g s ++ (t.map f).flatten) ++ (t.map g).flatten)
        = (f s ++ g s) ++ ((t.map f).flatten ++ (t.map g).flatten) := by
      simp [List.append_assoc]
    rw [h3]
    exact List.Perm.append_left _ ih

lemma take_drop_flatten_perm (c : ℕ) (x : Batch) :
    ((x.map (List.take c)).flatten ++ (x.map (List.drop c)).flatten).Perm x.flatten := by
  refine (flatten_map_append_perm (List.take c) (List.drop c) x).trans ?_
  simp [List.take_append_drop]

/-! ### Characterization of the chunked loop -/

/-- The chunk means produced by the successive iterations of the
`calc_entro_by_batch` loop. -/
def chunkMeans (book : List Vec) (T : ℚ) (E : ℚ → ℚ) (c : ℕ) : ℕ → Batch → List Vec
  | 0, _ => []
  | n + 1, x => chunkMeanOf book T E (x.map (List.take c)) ::
      chunkMeans book T E c n (x.map (List.drop c))

lemma zipWith_zipWith_same {α β : Type _} (f g : β → α → β) (a : List β) :
    ∀ x : List α, List.zipWith f (List.zipWith g a x) x
      = List.zipWith (fun e s => f (g e s) s) a x := by
  induction a with
  | nil => intro x; simp
  | cons e t ih =>
    intro x
    cases x with
    | nil => simp
    | cons s u => simp [ih]

lemma zipWith_eq_left_of_mem {α β : Type _} (f : β → α → β) (a : List β) :
    ∀ x : List α, a.length ≤ x.length → (∀ e, ∀ s ∈ x, f e s = e) →
      List.zipWith f a x = a := by
  induction a with
  | nil => intro x _ _; simp
  | cons e t ih =>
    intro x hlen hf
    cases x with
    | nil => simp at hlen
    | cons s u =>
      rw [List.zipWith_cons_cons, hf e s (List.mem_cons_self _ _),
        ih u (by simpa using hlen) (fun e' s' hs' => hf e' s' (List.mem_cons_of_mem _ hs'))]

/-- The `calc_entro_by_batch` loop in closed form: each sample's entropy
accumulator receives the sum of its per-position entropies divided by `S`, and
every `mean_probs` row receives the successive chunk means. -/
lemma byBatch_fold (book : List Vec) (T eps : ℚ) (E Lg : ℚ → ℚ) (S c : ℕ) :
    ∀ (n : ℕ) (x : Batch) (ae : List ℚ) (ap : List Vec),
      (∀ s ∈ x, s.length = n * c) → ae.length = x.length →
      List.foldl (byBatchStep book T eps E Lg S) (ae, ap) (batchChunks c n x)
        = (List.zipWith (fun e s =>
             e + (s.map (posEntropy book T eps E Lg)).sum / (S : ℚ)) ae x,
           ap.map (fun row => List.foldl vadd row (chunkMeans book T E c n x))) := by
  intro n
  induction n with
  | zero =>
    intro x ae ap hx hlen
    simp only [batchChunks, List.foldl_nil, chunkMeans, List.foldl_nil]
    refine Prod.ext ?_ ?_
    · refine (zipWith_eq_left_of_mem _ ae x (le_of_eq hlen) ?_).symm
      intro e s hs
      have hs0 : s = [] := by
        have h2 := hx s hs
        simpa using h2
      subst hs0
      simp
    · simp
  | succ m ih =>
    intro x ae ap hx hlen
    simp only [batchChunks, List.foldl_cons, byBatchStep]
    have hx' : ∀ s ∈ x.map (List.drop c), s.length = m * c := by
      intro s hs
      rcases List.mem_map.1 hs with ⟨u, hu, rfl⟩
      rw [List.length_drop, hx u hu, Nat.succ_mul]
      omega
    have hlen' : (List.zipWith (fun e srow => e + List.sum srow / (S : ℚ)) ae
        ((x.map (List.take c)).map (fun s => s.map (posEntropy book T eps E Lg)))).length
        = (x.map (List.drop c)).length := by
      rw [List.length_zipWith, List.length_map, List.length_map, List.length_map, hlen]
      simp
    rw [ih (x.map (List.drop c)) _ _ hx' hlen']
    refine Prod.ext ?_ ?_
    · show List.zipWith _ (List.zipWith _ ae _) _ = _
      rw [List.map_map, List.zipWith_map_right, List.zipWith_map_right, zipWith_zipWith_same]
      have hfun : (fun (e : ℚ) (s : Sample) =>
          e + ((List.take c s).map (posEntropy book T eps E Lg)).sum / (S : ℚ)
            + ((List.drop c s).map (posEntropy book T eps E Lg)).sum / (S : ℚ))
          = (fun (e : ℚ) (s : Sample) =>
              e + (s.map (posEntropy book T eps E Lg)).sum / (S : ℚ)) := by
        funext e s
        rw [add_assoc, div_add_div_same, ← List.sum_append, ← List.map_append,
          List.take_append_drop]
      rw [← hfun]
      rfl
    · show (ap.map _).map _ = _
      rw [List.map_map]
      rfl

/-! ### Shapes and masses of the probability rows -/

lemma length_posProbs (book : List Vec) (T : ℚ) (E : ℚ → ℚ) (v : Vec) :
    (posProbs book T E v).length = book.length := by
  simp [posProbs, softmaxD, posL, logitsOf]

lemma flat_probs_length (book : List Vec) (T : ℚ) (E : ℚ → ℚ) (xc : Batch) :
    ∀ v ∈ (xc.map (fun s => s.map (posProbs book T E))).flatten, v.length = book.length := by
  intro v hv
  rcases List.mem_flatten.1 hv with ⟨l, hl, hvl⟩
  rcases List.mem_map.1 hl with ⟨s, _, rfl⟩
  rcases List.mem_map.1 hvl with ⟨w, _, rfl⟩
  exact length_posProbs book T E w

lemma flat_probs_count (book : List Vec) (T : ℚ) (E : ℚ → ℚ) (c : ℕ) (xc : Batch)
    (hxc : ∀ s ∈ xc, s.length = c) :
    (xc.map (fun s => s.map (posProbs book T E))).flatten.length = xc.length * c := by
  rw [List.length_flatten, List.map_map]
  have hmap : xc.map (List.length ∘ fun s => s.map (posProbs book T E))
      = xc.map (fun _ => c) := by
    refine List.map_congr_left ?_
    intro s hs
    simp [hxc s hs]
  rw [hmap, List.map_const', List.sum_replicate, smul_eq_mul]

lemma chunkMeans_length (book : List Vec) (T : ℚ) (E : ℚ → ℚ) (c : ℕ) :
    ∀ (n : ℕ) (x : Batch), ∀ v ∈ chunkMeans book T E c n x, v.length = book.length := by
  intro n
  induction n with
  | zero => intro x v hv; simp [chunkMeans] at hv
  | succ m ih =>
    intro x v hv
    rcases List.mem_cons.1 hv with hv0 | hvr
    · subst hv0
      unfold chunkMeanOf
      rw [length_vsmul]
      exact length_foldl_vadd _ _ (length_vzero _) (flat_probs_length book T E _)
    · exact ih (x.map (List.drop c)) v hvr

lemma sum_softmaxD (E : ℚ → ℚ) (l : List ℚ) (h0 : (l.map E).sum ≠ 0) :
    (softmaxD E l).sum = 1 := by
  unfold softmaxD
  have hrw : (l.map fun z => E z / (l.map E).sum)
      = (l.map E).map (fun w => w * ((l.map E).sum)⁻¹) := by
    rw [List.map_map]
    refine List.map_congr_left ?_
    intro z _
    simp [div_eq_mul_inv]
  rw [hrw]
  have := List.sum_map_mul_right (l.map E) (fun w => w) (((l.map E).sum)⁻¹)
  simp only [List.map_id'] at this
  rw [show ((l.map E).map fun w => w * ((l.map E).sum)⁻¹)
      = (l.map E).map fun w => (fun w => w) w * ((l.map E).sum)⁻¹ from rfl, this]
  exact mul_inv_cancel₀ h0

lemma sumE_pos (E : ℚ → ℚ) (hE : ∀ z, 0 < E z) (l : List ℚ) (hl : l ≠ []) :
    0 < (l.map E).sum := by
  refine List.sum_pos _ ?_ (by simpa using hl)
  intro w hw
  rcases List.mem_map.1 hw with ⟨z, _, rfl⟩
  exact hE z

lemma sum_posProbs (book : List Vec) (T : ℚ) (E : ℚ → ℚ) (v : Vec)
    (hbook : book ≠ []) (hE : ∀ z, 0 < E z) :
    (posProbs book T E v).sum = 1 := by
  unfold posProbs
  refine sum_softmaxD E _ ?_
  refine ne_of_gt (sumE_pos E hE _ ?_)
  refine List.ne_nil_of_length_pos ?_
  rw [show (posL book T v).length = book.length from by simp [posL, logitsOf]]
  exact List.length_pos.2 hbook

/-- The total of the chunk means is `1/(B·c)` times the vector total of every
position's probability row — independent of how many chunks there are. -/
lemma chunkMeans_total (book : List Vec) (T : ℚ) (E : ℚ → ℚ) (c : ℕ) (hc : 0 < c) (B : ℕ) :
    ∀ (n : ℕ) (x : Batch), x.length = B → (∀ s ∈ x, s.length = n * c) →
      List.foldl vadd (vzero book.length) (chunkMeans book T E c n x)
        = vsmul (1 / ((B : ℚ) * (c : ℚ)))
            (List.foldl vadd (vzero book.length) (x.flatten.map (posProbs book T E))) := by
  intro n
  induction n with
  | zero =>
    intro x hB hx
    have hfl : x.flatten = [] := by
      refine List.flatten_eq_nil_iff.2 ?_
      intro l hl
      have h2 := hx l hl
      simpa using h2
    simp [chunkMeans, hfl, vsmul_vzero]
  | succ m ih =>
    intro x hB hx
    have hx' : ∀ s ∈ x.map (List.drop c), s.length = m * c := by
      intro s hs
      rcases List.mem_map.1 hs with ⟨u, hu, rfl⟩
      rw [List.length_drop, hx u hu, Nat.succ_mul]
      omega
    have hxc : ∀ s ∈ x.map (List.take c), s.length = c := by
      intro s hs
      rcases List.mem_map.1 hs with ⟨u, hu, rfl⟩
      rw [List.length_take, hx u hu, Nat.succ_mul]
      omega
    have hm0len : (chunkMeanOf book T E (x.map (List.take c))).length = book.length := by
      unfold chunkMeanOf
      rw [length_vsmul]
      exact length_foldl_vadd _ _ (length_vzero _) (flat_probs_length book T E _)
    simp only [chunkMeans, List.foldl_cons]
    rw [vadd_vzero_left _ hm0len,
      foldl_vadd_eq_vadd _ _ hm0len (chunkMeans_length book T E c m _),
      ih (x.map (List.drop c)) (by simp [hB]) hx']
    have hm0 : chunkMeanOf book T E (x.map (List.take c))
        = vsmul (1 / ((B : ℚ) * (c : ℚ)))
            (List.foldl vadd (vzero book.length)
              (((x.map (List.take c)).flatten).map (posProbs book T E))) := by
      simp only [chunkMeanOf]
      rw [flat_probs_count book T E c _ hxc, List.length_map, hB]
      congr 1
      · push_cast
        rfl
      · rw [← List.map_flatten]
    rw [hm0, ← vsmul_vadd]
    congr 1
    rw [← foldl_vadd_eq_vadd _ _
        (length_foldl_vadd _ _ (length_vzero _)
          (by
            intro v hv
            rcases List.mem_map.1 hv with ⟨w, _, rfl⟩
            exact length_posProbs book T E w))
        (by
          intro v hv
          rcases List.mem_map.1 hv with ⟨w, _, rfl⟩
          exact length_posProbs book T E w),
      ← List.foldl_append]
    refine List.Perm.foldl_eq ?_ _
    rw [← List.map_append]
    exact (take_drop_flatten_perm c x).map (posProbs book T E)

/-! ### Claim C5 — the chunked estimator equals the direct one -/

lemma zipWith_replicate_left {α β γ : Type _} (f : α → β → γ) (a : α) :
    ∀ x : List β, List.zipWith f (List.replicate x.length a) x = x.map (f a) := by
  intro x
  induction x with
  | nil => simp
  | cons s t ih => simp [List.replicate_succ, ih]

lemma sum_map_div {α : Type _} (l : List α) (g : α → ℚ) (d : ℚ) :
    (l.map (fun s => g s / d)).sum = (l.map g).sum / d := by
  induction l with
  | nil => simp
  | cons s t ih => simp [ih, add_div]

lemma sum_map_sum_flatten (x : Batch) (H : Vec → ℚ) :
    (x.map (fun s => (s.map H).sum)).sum = (x.flatten.map H).sum := by
  rw [List.map_flatten, List.sum_flatten, List.map_map]
  rfl

lemma listMean_replicate (B : ℕ) (hB : 0 < B) (v : ℚ) :
    listMean (List.replicate B v) = v := by
  unfold listMean
  rw [List.sum_replicate, List.length_replicate, nsmul_eq_mul]
  exact mul_div_cancel_left₀ v (Nat.cast_ne_zero.2 hB.ne')

lemma flatten_length_of_shape (x : Batch) (S : ℕ) (hS : ∀ s ∈ x, s.length = S) :
    x.flatten.length = x.length * S := by
  rw [List.length_flatten]
  have hmap : x.map List.length = x.map (fun _ => S) := by
    refine List.map_congr_left ?_
    intro s hs
    exact hS s hs
  rw [hmap, List.map_const', List.sum_replicate, smul_eq_mul]

lemma headD_length (x : Batch) (S : ℕ) (hB : x ≠ []) (hS : ∀ s ∈ x, s.length = S) :
    (x.headD []).length = S := by
  cases x with
  | nil => exact absurd rfl hB
  | cons s t => exact hS s (List.mem_cons_self _ _)

/-- Closed form of `byBatchCore` on a well-shaped batch: the per-sample
entropy totals divided by `S`, and every `mean_probs` row equal to the
`1/(B·S)`-scaled total of all probability rows. -/
lemma byBatchCore_eq (k : ℕ) (book : List Vec) (T eps : ℚ) (E Lg : ℚ → ℚ)
    (c S : ℕ) (x : Batch) (hk : book.length = k) (hB : x ≠ [])
    (hS : ∀ s ∈ x, s.length = S) (hc : 0 < c) (hdvd : c ∣ S) :
    byBatchCore k book T eps E Lg c x
      = (x.map (fun s => (s.map (posEntropy book T eps E Lg)).sum / (S : ℚ)),
         List.replicate x.length
           (vsmul (1 / ((x.length : ℚ) * (S : ℚ)))
             (List.foldl vadd (vzero k) (x.flatten.map (posProbs book T E))))) := by
  have hhead := headD_length x S hB hS
  have hnc : (S / c) * c = S := Nat.div_mul_cancel hdvd
  have hshape : ∀ s ∈ x, s.length = (S / c) * c := by
    intro s hs
    rw [hnc]
    exact hS s hs
  simp only [byBatchCore, hhead]
  rw [byBatch_fold book T eps E Lg S c (S / c) x _ _ hshape (List.length_replicate _ _)]
  refine Prod.ext ?_ ?_
  · show List.zipWith _ (List.replicate x.length 0) x = _
    rw [zipWith_replicate_left]
    refine List.map_congr_left ?_
    intro s _
    rw [zero_add]
  · show (List.map _ (List.replicate x.length (vzero k))).map _ = _
    rw [List.map_replicate, List.map_replicate]
    have hzk : vzero k = vzero book.length := by rw [hk]
    rw [hzk, chunkMeans_total book T E c hc x.length (S / c) x rfl hshape, vsmul_vsmul, hk]
    have hcast : ((S / c : ℕ) : ℚ) * (c : ℚ) = (S : ℚ) := by
      exact_mod_cast congrArg (Nat.cast : ℕ → ℚ) hnc
    have hscal : 1 / ((S / c : ℕ) : ℚ) * (1 / ((x.length : ℚ) * (c : ℚ)))
        = 1 / ((x.length : ℚ) * (S : ℚ)) := by
      rw [one_div_mul_one_div, ← hcast]
      ring_nf
    rw [hscal]

/-- Closed form of the modelled Vanilla estimator on a well-shaped batch. -/
lemma book_entropy_eq (book : List Vec) (T eps : ℚ) (E Lg : ℚ → ℚ)
    (S : ℕ) (x : Batch) (hS : ∀ s ∈ x, s.length = S) :
    book_entropy book T eps E Lg x
      = ((x.flatten.map (posEntropy book T eps E Lg)).sum / ((x.length : ℚ) * (S : ℚ)),
         rowEntropy eps Lg
           (vsmul (1 / ((x.length : ℚ) * (S : ℚ)))
             (List.foldl vadd (vzero book.length) (x.flatten.map (posProbs book T E))))) := by
  simp only [book_entropy]
  refine Prod.ext ?_ ?_
  · show listMean (x.flatten.map (posEntropy book T eps E Lg)) = _
    unfold listMean
    rw [List.length_map, flatten_length_of_shape x S hS]
    push_cast
    rfl
  · show rowEntropy eps Lg _ = _
    congr 2
    rw [List.length_map, flatten_length_of_shape x S hS]
    push_cast
    rfl

/-- The scalar pair assembled from `byBatchCore` equals the (spec-modelled)
Vanilla result. -/
lemma byBatch_scalars_eq (k : ℕ) (book : List Vec) (T eps : ℚ) (E Lg : ℚ → ℚ)
    (c S : ℕ) (x : Batch)
    (hk : book.length = k) (hB : x ≠ []) (hS : ∀ s ∈ x, s.length = S)
    (hc : 0 < c) (hdvd : c ∣ S) :
    (listMean (byBatchCore k book T eps E Lg c x).1,
     listMean ((byBatchCore k book T eps E Lg c x).2.map (rowEntropy eps Lg)))
      = book_entropy book T eps E Lg x := by
  have hBpos : 0 < x.length := List.length_pos.2 hB
  rw [byBatchCore_eq k book T eps E Lg c S x hk hB hS hc hdvd,
    book_entropy_eq book T eps E Lg S x hS]
  refine Prod.ext ?_ ?_
  · show listMean (x.map fun s => (s.map (posEntropy book T eps E Lg)).sum / (S : ℚ)) = _
    unfold listMean
    rw [sum_map_div, sum_map_sum_flatten, List.length_map, div_div, mul_comm]
  · show listMean ((List.replicate x.length _).map (rowEntropy eps Lg)) = _
    rw [List.map_replicate, listMean_replicate _ hBpos, hk]

/-- C5: for a chunk size evenly dividing the (uniform) sequence length, the
Chunked-Batch estimator and the (spec-modelled) Vanilla estimator produce
exactly the same `(entro_mean, mean_entro)` pair on the same batch and
codebook — in particular they agree within any positive tolerance such as
`1e-3`.  This holds for every softmax weight function `E` and logarithm `Lg`,
so in particular for the real `exp`/`log` the backend computes. -/
theorem lfq_c5_chunked_matches_vanilla (k : ℕ) (book : List Vec) (T eps : ℚ)
    (E Lg : ℚ → ℚ) (c S : ℕ) (x : Batch)
    (hk : book.length = k) (hB : x ≠ []) (hS : ∀ s ∈ x, s.length = S)
    (hc : 0 < c) (hdvd : c ∣ S) :
    calc_entro_by_batch k book T eps E Lg c false x
      = .ok (book_entropy book T eps E Lg x) ∧
    ∀ p, calc_entro_by_batch k book T eps E Lg c false x = .ok p →
      |p.1 - (book_entropy book T eps E Lg x).1| < 1 / 1000 ∧
      |p.2 - (book_entropy book T eps E Lg x).2| < 1 / 1000 := by
  have hBpos : 0 < x.length := List.length_pos.2 hB
  have hhead := headD_length x S hB hS
  have hmod : S % c = 0 := Nat.mod_eq_zero_of_dvd hdvd
  have hmain : calc_entro_by_batch k book T eps E Lg c false x
      = .ok (book_entropy book T eps E Lg x) := by
    simp only [calc_entro_by_batch, hhead]
    rw [if_pos hmod]
    simp only [Bool.false_and]
    rw [if_neg Bool.false_ne_true]
    exact congrArg Except.ok (byBatch_scalars_eq k book T eps E Lg c S x hk hB hS hc hdvd)
  refine ⟨hmain, ?_⟩
  intro p hp
  rw [hmain] at hp
  obtain rfl : p = book_entropy book T eps E Lg x := (Except.ok.inj hp).symm
  constructor
  · simp only [sub_self, abs_zero]
    norm_num
  · simp only [sub_self, abs_zero]
    norm_num

/-! ### Claim C8 — probability-mass invariants -/

lemma mem_zipWith {α β γ : Type _} (f : α → β → γ) :
    ∀ (a : List α) (b : List β), ∀ z ∈ List.zipWith f a b,
      ∃ p q, p ∈ a ∧ q ∈ b ∧ z = f p q := by
  intro a
  induction a with
  | nil => intro b z hz; simp at hz
  | cons p t ih =>
    intro b z hz
    cases b with
    | nil => simp at hz
    | cons q u =>
      rcases List.mem_cons.1 hz with hz0 | hzr
      · exact ⟨p, q, List.mem_cons_self _ _, List.mem_cons_self _ _, hz0⟩
      · rcases ih u z hzr with ⟨p', q', hp', hq', rfl⟩
        exact ⟨p', q', List.mem_cons_of_mem _ hp', List.mem_cons_of_mem _ hq', rfl⟩

/-- Mass accounting for the `_block` inner loop: every `mean_probs` row gains
exactly `c / (S·R)` of probability mass per chunk and keeps its width. -/
lemma blockStep_fold (sub_book : List Vec) (T eps : ℚ) (E Lg : ℚ → ℚ) (S R c : ℕ)
    (hsub : sub_book ≠ []) (hE : ∀ z, 0 < E z) (hc : 0 < c) :
    ∀ (n : ℕ) (x : Batch) (st : List ℚ × List Vec) (σ : ℚ),
      (∀ s ∈ x, s.length = n * c) →
      (∀ row ∈ st.2, row.sum = σ ∧ row.length = sub_book.length) →
      st.2.length = x.length →
      (∀ row ∈ (List.foldl (blockStep sub_book T eps E Lg S R) st (batchChunks c n x)).2,
        row.sum = σ + (n : ℚ) * ((c : ℚ) / ((S : ℚ) * (R : ℚ)))
          ∧ row.length = sub_book.length) ∧
      (List.foldl (blockStep sub_book T eps E Lg S R) st (batchChunks c n x)).2.length
        = x.length := by
  intro n
  induction n with
  | zero =>
    intro x st σ hx hrows hlen
    simp only [batchChunks, List.foldl_nil]
    refine ⟨?_, hlen⟩
    intro row hrow
    rcases hrows row hrow with ⟨h1, h2⟩
    rw [h1]
    norm_num
    exact h2
  | succ m ih =>
    intro x st σ hx hrows hlen
    simp only [batchChunks, List.foldl_cons]
    have hx' : ∀ s ∈ x.map (List.drop c), s.length = m * c := by
      intro s hs
      rcases List.mem_map.1 hs with ⟨u, hu, rfl⟩
      rw [List.length_drop, hx u hu, Nat.succ_mul]
      omega
    have hstep : ∀ row ∈ (blockStep sub_book T eps E Lg S R st (x.map (List.take c))).2,
        row.sum = σ + (c : ℚ) / ((S : ℚ) * (R : ℚ)) ∧ row.length = sub_book.length := by
      intro row hrow
      simp only [blockStep] at hrow
      rcases mem_zipWith _ _ _ row hrow with ⟨r0, srows, hr0, hsrows, rfl⟩
      rcases hrows r0 hr0 with ⟨hsum0, hlen0⟩
      rcases List.mem_map.1 hsrows with ⟨s, hs, rfl⟩
      rcases List.mem_map.1 hs with ⟨u, hu, rfl⟩
      have hslen : (List.take c u).length = c := by
        rw [List.length_take, hx u hu, Nat.succ_mul]
        omega
      have hprobslen : ∀ v ∈ (List.take c u).map (posProbs sub_book T E),
          v.length = sub_book.length := by
        intro v hv
        rcases List.mem_map.1 hv with ⟨w, _, rfl⟩
        exact length_posProbs sub_book T E w
      have hwlen : (vsmul (1 / ((S : ℚ) * (R : ℚ)))
          (List.foldl vadd (vzero sub_book.length)
            ((List.take c u).map (posProbs sub_book T E)))).length = sub_book.length := by
        rw [length_vsmul]
        exact length_foldl_vadd _ _ (length_vzero _) hprobslen
      constructor
      · rw [sum_vadd _ _ (by rw [hlen0, hwlen]), hsum0, sum_vsmul,
          sum_foldl_vadd _ _ (by rw [length_vzero]) hprobslen, sum_vzero, zero_add,
          List.map_map]
        have hones : (List.take c u).map (List.sum ∘ posProbs sub_book T E)
            = (List.take c u).map (fun _ => (1 : ℚ)) := by
          refine List.map_congr_left ?_
          intro w _
          exact sum_posProbs sub_book T E w hsub hE
        rw [hones, List.map_const', List.sum_replicate, hslen, nsmul_eq_mul, mul_one,
          one_div, div_eq_mul_inv, mul_comm]
      · rw [length_vadd, hlen0, hwlen]
        simp
    have hsteplen : (blockStep sub_book T eps E Lg S R st (x.map (List.take c))).2.length
        = (x.map (List.drop c)).length := by
      simp only [blockStep]
      rw [List.length_zipWith, hlen]
      simp
    have := ih (x.map (List.drop c)) (blockStep sub_book T eps E Lg S R st (x.map (List.take c)))
      (σ + (c : ℚ) / ((S : ℚ) * (R : ℚ))) hx' hstep hsteplen
    refine ⟨?_, by rw [this.2]; simp⟩
    intro row hrow
    rcases this.1 row hrow with ⟨h1, h2⟩
    refine ⟨?_, h2⟩
    rw [h1]
    push_cast
    ring

/-- Mass accounting for the outer subbook loop of `calc_entro_block`. -/
lemma block_ranges_fold (d sbs : ℕ) (T eps : ℚ) (E Lg : ℚ → ℚ) (c S R : ℕ) (x : Batch)
    (hE : ∀ z, 0 < E z) (hc : 0 < c) (hx : ∀ s ∈ x, s.length = (S / c) * c) :
    ∀ (rs : List (ℕ × ℕ)) (st : List ℚ × List Vec) (σ : ℚ),
      (∀ r ∈ rs, r.2 - r.1 = sbs ∧ r.1 < r.2) →
      (∀ row ∈ st.2, row.sum = σ ∧ row.length = sbs) →
      st.2.length = x.length →
      ∀ row ∈ (List.foldl (fun st r =>
          List.foldl (blockStep (generate_sub_book_t d r.1 r.2) T eps E Lg S R) st
            (batchChunks c (S / c) x)) st rs).2,
        row.sum = σ + (rs.length : ℚ)
            * (((S / c : ℕ) : ℚ) * ((c : ℚ) / ((S : ℚ) * (R : ℚ)))) := by
  intro rs
  induction rs with
  | nil =>
    intro st σ _ hrows _
    simp only [List.foldl_nil]
    intro row hrow
    rw [(hrows row hrow).1]
    norm_num
  | cons r rt ih =>
    intro st σ hrs hrows hlen
    simp only [List.foldl_cons]
    have hr := hrs r (List.mem_cons_self _ _)
    have hsblen : (generate_sub_book_t d r.1 r.2).length = sbs := by
      rw [show (generate_sub_book_t d r.1 r.2).length = r.2 - r.1 from by
        simp [generate_sub_book_t]]
      exact hr.1
    have hsub : generate_sub_book_t d r.1 r.2 ≠ [] := by
      refine List.ne_nil_of_length_pos ?_
      rw [hsblen]
      omega
    have hinner := blockStep_fold (generate_sub_book_t d r.1 r.2) T eps E Lg S R c hsub hE hc
      (S / c) x st σ hx
      (fun row hrow => ⟨(hrows row hrow).1, by rw [hsblen]; exact (hrows row hrow).2⟩) hlen
    have hnext := ih (List.foldl (blockStep (generate_sub_book_t d r.1 r.2) T eps E Lg S R) st
        (batchChunks c (S / c) x))
      (σ + ((S / c : ℕ) : ℚ) * ((c : ℚ) / ((S : ℚ) * (R : ℚ))))
      (fun r' hr' => hrs r' (List.mem_cons_of_mem _ hr'))
      (fun row hrow => ⟨((hinner.1 row hrow).1), by
        rw [← hsblen]; exact (hinner.1 row hrow).2⟩) hinner.2
    intro row hrow
    rw [hnext row hrow, List.length_cons]
    push_cast
    ring

/-- The mass of the final chunked-batch `mean_probs` row is exactly `1`. -/
lemma chunked_row_mass (k : ℕ) (book : List Vec) (T : ℚ) (E : ℚ → ℚ) (S : ℕ) (x : Batch)
    (hk : book.length = k) (hbook : book ≠ []) (hE : ∀ z, 0 < E z)
    (hB : x ≠ []) (hS : ∀ s ∈ x, s.length = S) (hS0 : 0 < S) :
    (vsmul (1 / ((x.length : ℚ) * (S : ℚ)))
      (List.foldl vadd (vzero k) (x.flatten.map (posProbs book T E)))).sum = 1 := by
  have hBpos : 0 < x.length := List.length_pos.2 hB
  have hlens : ∀ v ∈ x.flatten.map (posProbs book T E), v.length = k := by
    intro v hv
    rcases List.mem_map.1 hv with ⟨w, _, rfl⟩
    rw [length_posProbs, hk]
  rw [sum_vsmul, sum_foldl_vadd _ _ (length_vzero _) hlens, sum_vzero, zero_add, List.map_map]
  have hones : x.flatten.map (List.sum ∘ posProbs book T E)
      = x.flatten.map (fun _ => (1 : ℚ)) := by
    refine List.map_congr_left ?_
    intro w _
    exact sum_posProbs book T E w hbook hE
  rw [hones, List.map_const', List.sum_replicate, flatten_length_of_shape x S hS,
    nsmul_eq_mul, mul_one]
  push_cast
  rw [one_div]
  refine inv_mul_cancel₀ ?_
  refine mul_ne_zero ?_ ?_
  · exact Nat.cast_ne_zero.2 hBpos.ne'
  · exact Nat.cast_ne_zero.2 hS0.ne'

/-- C8 (amended): the final accumulated mean-probability vector of an entropy
estimator carries total mass exactly `1` (for a positive softmax weight
function): in Block mode every row of the final accumulated vector sums to
`1`, and in Chunked-Batch mode every final `self.mean_probs` row sums to `1`,
so the debug assertion of `calc_entro_by_batch` — which checks only
`|Σ mean_probs[0]| < 1.1` — passes, and the call with debugging enabled
returns the same result as without.  (The Block estimator has no debug
assertion.) -/
theorem lfq_c8_probability_mass (k : ℕ) (book : List Vec) (d sbs : ℕ)
    (ranges : List (ℕ × ℕ)) (T eps : ℚ) (E Lg : ℚ → ℚ) (c S : ℕ) (x : Batch)
    (hk : book.length = k) (hbook : book ≠ []) (hE : ∀ z, 0 < E z)
    (hB : x ≠ []) (hS : ∀ s ∈ x, s.length = S) (hc : 0 < c) (hdvd : c ∣ S) (hS0 : 0 < S)
    (hranges : ranges ≠ []) (hr : ∀ r ∈ ranges, r.2 - r.1 = sbs ∧ r.1 < r.2) :
    (∀ row ∈ (blockCore d sbs ranges T eps E Lg c x).2, row.sum = 1) ∧
    (∀ row ∈ (byBatchCore k book T eps E Lg c x).2, row.sum = 1) ∧
    calc_entro_by_batch k book T eps E Lg c true x
      = .ok (book_entropy book T eps E Lg x) := by
  have hBpos : 0 < x.length := List.length_pos.2 hB
  have hhead := headD_length x S hB hS
  have hmod : S % c = 0 := Nat.mod_eq_zero_of_dvd hdvd
  have hnc : (S / c) * c = S := Nat.div_mul_cancel hdvd
  have hshape : ∀ s ∈ x, s.length = (S / c) * c := by
    intro s hs
    rw [hnc]
    exact hS s hs
  refine ⟨?_, ?_, ?_⟩
  · intro row hrow
    simp only [blockCore, hhead] at hrow
    have hfold := block_ranges_fold d sbs T eps E Lg c S ranges.length x hE hc hshape ranges
      (List.replicate x.length 0, List.replicate x.length (vzero sbs)) 0
      hr
      (by
        intro row' hrow'
        rw [List.eq_of_mem_replicate hrow']
        exact ⟨sum_vzero sbs, length_vzero sbs⟩)
      (List.length_replicate _ _)
    rw [hfold row hrow, zero_add]
    have hcast : ((S / c : ℕ) : ℚ) * (c : ℚ) = (S : ℚ) := by
      exact_mod_cast congrArg (Nat.cast : ℕ → ℚ) hnc
    have hSne : (S : ℚ) ≠ 0 := Nat.cast_ne_zero.2 hS0.ne'
    have hRne : (ranges.length : ℚ) ≠ 0 :=
      Nat.cast_ne_zero.2 (List.length_pos.2 hranges).ne'
    field_simp
    rw [← hcast]
    ring
  · intro row hrow
    rw [byBatchCore_eq k book T eps E Lg c S x hk hB hS hc hdvd] at hrow
    rw [List.eq_of_mem_replicate hrow]
    exact chunked_row_mass k book T E S x hk hbook hE hB hS hS0
  · simp only [calc_entro_by_batch, hhead]
    rw [if_pos hmod]
    have hguard : debugGuard (byBatchCore k book T eps E Lg c x).2 = true := by
      rw [byBatchCore_eq k book T eps E Lg c S x hk hB hS hc hdvd]
      obtain ⟨s, t, rfl⟩ : ∃ s t, x = s :: t := by
        cases x with
        | nil => exact absurd rfl hB
        | cons s t => exact ⟨s, t, rfl⟩
      unfold debugGuard
      rw [show ((List.replicate (s :: t).length
          (vsmul (1 / (((s :: t).length : ℚ) * (S : ℚ)))
            (List.foldl vadd (vzero k) ((s :: t).flatten.map (posProbs book T E))))).headD [])
          = vsmul (1 / (((s :: t).length : ℚ) * (S : ℚ)))
              (List.foldl vadd (vzero k) ((s :: t).flatten.map (posProbs book T E))) from by
        simp [List.replicate_succ]]
      rw [chunked_row_mass k book T E S (s :: t) hk hbook hE hB hS hS0]
      exact decide_eq_true (by norm_num)
    rw [hguard]
    simp only [Bool.not_true, Bool.and_false]
    rw [if_neg Bool.false_ne_true]
    exact congrArg Except.ok (byBatch_scalars_eq k book T eps E Lg c S x hk hB hS hc hdvd)

/-- C5 witness: bit-width `1` (below any first threshold), two positions,
chunk size `1` dividing `S = 2`: the chunked and direct estimators agree
exactly (both give `(0, 0)` for the constant weight functions). -/
theorem lfq_c5_witness :
    calc_entro_by_batch 2 ((List.range 2).map (bookRow 1)) 1 0 E0 Lg0 1 false
        [[[(1 : ℚ)], [(2 : ℚ)]]]
      = .ok (book_entropy ((List.range 2).map (bookRow 1)) 1 0 E0 Lg0
          [[[(1 : ℚ)], [(2 : ℚ)]]]) ∧
    book_entropy ((List.range 2).map (bookRow 1)) 1 0 E0 Lg0 [[[(1 : ℚ)], [(2 : ℚ)]]]
      = (0, 0) := by
  constructor
  · exact (lfq_c5_chunked_matches_vanilla 2 ((List.range 2).map (bookRow 1)) 1 0 E0 Lg0 1 2
      [[[(1 : ℚ)], [(2 : ℚ)]]] (by decide) (by decide) (by decide) (by decide) (by decide)).1
  · with_unfolding_all decide

/-- C8 witness: a two-subbook Block configuration at `d = 1` and a chunked
configuration on the same two-position batch; the accumulated rows carry unit
mass and the debug-enabled chunked call succeeds. -/
theorem lfq_c8_witness :
    (∀ row ∈ (blockCore 1 1 [(0, 1), (1, 2)] 1 0 E0 Lg0 1 [[[(1 : ℚ)], [(2 : ℚ)]]]).2,
      row.sum = 1) ∧
    (blockCore 1 1 [(0, 1), (1, 2)] 1 0 E0 Lg0 1 [[[(1 : ℚ)], [(2 : ℚ)]]]).2 = [[1]] ∧
    calc_entro_by_batch 2 ((List.range 2).map (bookRow 1)) 1 0 E0 Lg0 1 true
        [[[(1 : ℚ)], [(2 : ℚ)]]]
      = .ok (book_entropy ((List.range 2).map (bookRow 1)) 1 0 E0 Lg0
          [[[(1 : ℚ)], [(2 : ℚ)]]]) := by
  have h := lfq_c8_probability_mass 2 ((List.range 2).map (bookRow 1)) 1 1 [(0, 1), (1, 2)]
    1 0 E0 Lg0 1 2 [[[(1 : ℚ)], [(2 : ℚ)]]] (by decide) (by decide)
    (fun z => by norm_num [E0]) (by decide) (by decide) (by decide) (by decide) (by decide)
    (by decide) (by decide)
  exact ⟨h.1, by with_unfolding_all decide, h.2.2⟩

/-- C8 counterexample to the claim as stated: the debug assertion of the
source (line 97) checks `|Σ mean_probs[0]| < 1.1`, not that the sum is within
`~0.1` of `1` — it accepts a first row of total mass `0`, which is at distance
`1` from `1`. -/
theorem lfq_c8_counterexample :
    debugGuard [vzero 4] = true ∧ |(vzero 4).sum - 1| = 1 := by
  constructor
  · with_unfolding_all decide
  · with_unfolding_all decide

end LFQuant
